import Mathlib

/-!
Verification of the Sphinx mix-packet core of loopix-messaging.

The definitions below are a shallow embedding of `sphinx/sphinx.go`.
Byte strings are modelled as `List Nat`.  Curve25519 scalars and group
elements are modelled in the exponent: a group element is the discrete
logarithm (a `Nat`) of the corresponding point with respect to the base
point, so the base point is `1`, scalar multiplication multiplies the
clamped scalar into the exponent, and serialization of a field element
is the identity (an injective idealization of the 32-byte encoding).
The cryptographic primitives that live in the repository's crypto file
(not under `src/`) are modelled from the spec as deterministic,
infallible, collision-free symbolic operations.
-/

namespace Sphinx

/-- Modelled from the spec: Curve25519 scalar clamping (clear the three
low bits, clear bit 255, set bit 254) applied by every scalar
multiplication; the scalar is viewed as a 256-bit little-endian
integer. -/
def clamp (n : Nat) : Nat := 2 ^ 254 + n % 2 ^ 254 / 8 * 8

/-- Modelled from the spec: `curve25519.ScalarMult`, in the exponent
model: the clamped scalar multiplies the discrete logarithm of the
point.  This makes iterated scalar multiplication commutative, as on
the real curve, while keeping `clamp (a * b)` different from
`clamp a * clamp b`. -/
def scalarMult (s : Nat) (p : Nat) : Nat := clamp s * p

/-- Modelled from the spec: (§4.1) the chain-exponentiation helper
`expo(point, [s1, …, sn])` computes `((point·s1)·s2)…·sn` iteratively,
never by first multiplying the scalars together. -/
def expo (base : Nat) (scalars : List Nat) : Nat :=
  scalars.foldl (fun acc s => scalarMult s acc) base

/-- Modelled from the spec: (§4.1) `expoGroupBase` is `expo` applied to
the group base point (exponent `1`). -/
def expoGroupBase (scalars : List Nat) : Nat := expo 1 scalars

/-- Modelled from the spec: `bytes_to_scalar` / `BytesToFieldElement`
of the crypto file, the little-endian base-256 value of a byte
string. -/
def bytesToNat : List Nat → Nat
  | [] => 0
  | b :: bs => b + 256 * bytesToNat bs

/-- Modelled from the spec: the fixed-width little-endian base-256
serialization of the crypto file (32 bytes for public keys). -/
def natToBytes : Nat → Nat → List Nat
  | 0, _ => []
  | len + 1, n => n % 256 :: natToBytes len (n / 256)

/-- Modelled from the spec: PublicKeySize of the crypto file (spec
§3: pubkey length = 32). -/
def PublicKeySize : Nat := 32

/-- Modelled from the spec: (§4.2) `KDF` is a deterministic hash-based
expansion of a shared secret into a symmetric key; it never fails.  It
is idealized as an injective function. -/
def KDF (n : Nat) : Nat := Nat.pair 1 n

/-- Modelled from the spec: (§4.2) one byte of the AES-CTR keystream
determined by the key, the initialization vector and the position,
idealized as a pseudorandom function. -/
def ksByte (key iv i : Nat) : Nat := Nat.pair (Nat.pair key iv) i % 256

/-- Modelled from the spec: the AES-CTR primitive of the crypto file,
as XOR of the input with the keystream under the key and IV.
Length-preserving and involutive, as the real stream cipher. -/
def aesCtrIV (key iv : Nat) (data : List Nat) : List Nat :=
  List.zipWith (fun i b => b ^^^ ksByte key iv i) (List.range data.length) data

/-- Modelled from the spec: (§4.2) the sphinx `AesCtr` helper uses a
fixed all-zero nonce. -/
def AesCtr (key : Nat) (data : List Nat) : List Nat := aesCtrIV key 0 data

/-- Modelled from the spec: (§4.2) `computeMac` is an HMAC over the
data under the key, idealized as a collision-free keyed tag. -/
def computeMac (key : Nat) (data : List Nat) : List Nat := key :: data

/-- Byte representation of a string. -/
def strBytes (s : String) : List Nat := s.data.map Char.toNat

/-- The fixed 16-byte IV `"initialvector000"` (sphinx.go line 322). -/
def initialVector : List Nat := strBytes "initialvector000"

/-- computeSharedSecretHash (sphinx.go lines 335-350): AES-CTR
encryption of the 16-byte plaintext `"0000000000000000"` (sixteen ASCII
zero digits, byte value 48) under the given key and IV.  Creating the
AES cipher never fails on the keys produced by `KDF`, so the error
return is always nil. -/
def computeSharedSecretHash (key : Nat) (iv : List Nat) : List Nat :=
  aesCtrIV key (bytesToNat iv) (List.replicate 16 48)

/-- computeBlindingFactor (sphinx.go lines 321-331). -/
def computeBlindingFactor (key : Nat) : Nat :=
  bytesToNat (computeSharedSecretHash key initialVector)

/-- Hop (protobuf message used inside RoutingInfo). -/
structure Hop where
  Id : String
  Address : String
  PubKey : List Nat
deriving DecidableEq

/-- Commands (protobuf message: per-hop delay and flag).  The float64
delay is modelled as a rational number; the core never computes with
it, it is only carried. -/
structure Commands where
  Delay : Rat
  Flag : List Nat
deriving DecidableEq

/-- RoutingInfo (protobuf message).  The `NextHop` and
`RoutingCommands` message fields are pointers in Go and may be absent
after unmarshalling, hence `Option`. -/
structure RoutingInfo where
  NextHop : Option Hop
  RoutingCommands : Option Commands
  NextHopMetaData : List Nat
  Mac : List Nat
deriving DecidableEq

/-- Header of a sphinx packet.  `Alpha` is the serialized field
element (bytes modelled as the exponent `Nat`). -/
structure Header where
  Alpha : Nat
  Beta : List Nat
  Mac : List Nat
deriving DecidableEq

/-- The Go zero value `Header{}` (all fields nil/absent). -/
def zeroHeader : Header := { Alpha := 0, Beta := [], Mac := [] }

/-- HeaderInitials (per-hop tuple of getSharedSecrets). -/
structure HeaderInitials where
  Alpha : Nat
  Secret : Nat
  Blinder : Nat
  SecretHash : Nat
deriving DecidableEq

/-- SphinxPacket.  `Hdr` is a pointer in Go and may be absent after
unmarshalling. -/
structure SphinxPacket where
  Hdr : Option Header
  Pld : List Nat
deriving DecidableEq

/-- MixConfig (config package): identity and public key of a relay. -/
structure MixConfig where
  Id : String
  Host : String
  Port : String
  PubKey : List Nat
deriving DecidableEq

/-- ClientConfig (config package): identity of the recipient. -/
structure ClientConfig where
  Id : String
  Host : String
  Port : String
deriving DecidableEq

/-- E2EPath (config package): ingress provider, mixes, egress
provider and recipient. -/
structure E2EPath where
  IngressProvider : MixConfig
  Mixes : List MixConfig
  EgressProvider : MixConfig
  Recipient : ClientConfig
deriving DecidableEq

/-- Modelled from the spec: (§9) the flags package is not under
`src/`; `RelayFlag` is a distinct one-byte tag. -/
def relayFlag : List Nat := [240]

/-- Modelled from the spec: (§9) `LastHopFlag` is a distinct one-byte
tag. -/
def lastHopFlag : List Nat := [241]

/-!  Wire encoding.  The source uses Protocol Buffers; the spec (§6.2)
only requires a deterministic schema-driven binary format on which all
parties agree, with absent trailing fields decoding to defaults (so the
empty byte string is a valid serialization with every message field
absent).  We model it by a length-prefixed cell encoding. -/

/-- Length-prefixed encoding of a byte field. -/
def encBytes (bs : List Nat) : List Nat := bs.length :: bs

/-- Decoding of a byte field; an absent trailing field decodes to the
default (empty bytes), a length prefix overrunning the buffer is a
decode error. -/
def decBytes (l : List Nat) : Option (List Nat × List Nat) :=
  match l with
  | [] => some ([], [])
  | n :: rest => if n ≤ rest.length then some (rest.take n, rest.drop n) else none

/-- Encoding of a string field. -/
def encString (s : String) : List Nat := encBytes (strBytes s)

/-- Decoding of a string field. -/
def decString (l : List Nat) : Option (String × List Nat) :=
  match decBytes l with
  | none => none
  | some (bs, r) => some (String.mk (bs.map Char.ofNat), r)

/-- Zig-zag style encoding of an integer as a natural number. -/
def encInt (z : Int) : Nat := if 0 ≤ z then 2 * z.toNat else 2 * (-z).toNat - 1

/-- Decoding of a zig-zag encoded integer. -/
def decInt (n : Nat) : Int :=
  if n % 2 = 0 then ((n / 2 : Nat) : Int) else -(((n + 1) / 2 : Nat) : Int)

/-- Encoding of an optional embedded message: tag 0 for absent, tag 1
followed by the body for present. -/
def encOpt (f : α → List Nat) : Option α → List Nat
  | none => [0]
  | some x => 1 :: f x

/-- Decoding of an optional embedded message; an absent trailing field
decodes to `none`. -/
def decOpt (f : List Nat → Option (α × List Nat)) (l : List Nat) :
    Option (Option α × List Nat) :=
  match l with
  | [] => some (none, [])
  | t :: rest =>
    if t = 0 then some (none, rest)
    else if t = 1 then
      match f rest with
      | none => none
      | some (x, r) => some (some x, r)
    else none

/-- Encoding of a Hop message. -/
def encHop (h : Hop) : List Nat :=
  encString h.Id ++ encString h.Address ++ encBytes h.PubKey

/-- Decoding of a Hop message. -/
def decHop (l : List Nat) : Option (Hop × List Nat) :=
  match decString l with
  | none => none
  | some (i, r1) =>
    match decString r1 with
    | none => none
    | some (a, r2) =>
      match decBytes r2 with
      | none => none
      | some (pk, r3) => some ({ Id := i, Address := a, PubKey := pk }, r3)

/-- Encoding of a Commands message (delay as numerator and
denominator, then the flag bytes). -/
def encCommands (c : Commands) : List Nat :=
  encInt c.Delay.num :: c.Delay.den :: encBytes c.Flag

/-- Decoding of a Commands message. -/
def decCommands (l : List Nat) : Option (Commands × List Nat) :=
  match l with
  | e :: d :: rest =>
    match decBytes rest with
    | none => none
    | some (fl, r) => some ({ Delay := mkRat (decInt e) d, Flag := fl }, r)
  | _ => none

/-- proto.Marshal of a RoutingInfo. -/
def marshalRoutingInfo (r : RoutingInfo) : List Nat :=
  encOpt encHop r.NextHop ++ encOpt encCommands r.RoutingCommands ++
    encBytes r.NextHopMetaData ++ encBytes r.Mac

/-- proto.Unmarshal of a RoutingInfo. -/
def unmarshalRoutingInfo (l : List Nat) : Option RoutingInfo :=
  match decOpt decHop l with
  | none => none
  | some (nh, r1) =>
    match decOpt decCommands r1 with
    | none => none
    | some (rc, r2) =>
      match decBytes r2 with
      | none => none
      | some (meta, r3) =>
        match decBytes r3 with
        | none => none
        | some (m, _) =>
          some { NextHop := nh, RoutingCommands := rc, NextHopMetaData := meta, Mac := m }

/-- Encoding of a Header message. -/
def encHeader (h : Header) : List Nat := h.Alpha :: encBytes h.Beta ++ encBytes h.Mac

/-- Decoding of a Header message. -/
def decHeader (l : List Nat) : Option (Header × List Nat) :=
  match l with
  | [] => none
  | a :: rest =>
    match decBytes rest with
    | none => none
    | some (b, r1) =>
      match decBytes r1 with
      | none => none
      | some (m, r2) => some ({ Alpha := a, Beta := b, Mac := m }, r2)

/-- proto.Marshal of a SphinxPacket. -/
def marshalPacket (p : SphinxPacket) : List Nat :=
  encOpt encHeader p.Hdr ++ encBytes p.Pld

/-- proto.Unmarshal of a SphinxPacket.  Unmarshalling the empty byte
string succeeds and leaves every message field absent (`Hdr = none`),
as Go protobuf does. -/
def unmarshalPacket (l : List Nat) : Option SphinxPacket :=
  match decOpt decHeader l with
  | none => none
  | some (h, r1) =>
    match decBytes r1 with
    | none => none
    | some (pld, _) => some { Hdr := h, Pld := pld }

/-!  The sphinx core functions (sphinx.go).  Fallible Go functions
returning `(T, error)` become `Except String T`; a Go runtime panic
(index out of range, nil pointer dereference) is modelled by `none` in
`Option (Except String T)`. -/

/-- Result of a Go function that can return an error or crash with a
runtime panic (`none`). -/
abbrev Res (α : Type) := Option (Except String α)

/-- getSharedSecrets loop (sphinx.go lines 231-286), recursing over
the remaining nodes while carrying the accumulated `blindFactors`
list. -/
def getSharedSecretsAux : List MixConfig → List Nat → Except String (List HeaderInitials)
  | [], _ => .ok []
  | n :: rest, blindFactors =>
    if n.PubKey.length = PublicKeySize then
      let s := expo (bytesToNat n.PubKey) blindFactors
      let aesS := KDF s
      let blinder := computeBlindingFactor aesS
      match getSharedSecretsAux rest (blindFactors ++ [blinder]) with
      | .error e => .error e
      | .ok tuples =>
        .ok ({ Alpha := expoGroupBase blindFactors, Secret := s, Blinder := blinder,
               SecretHash := aesS } :: tuples)
    else .error "invalid public key provided for node"

/-- getSharedSecrets (sphinx.go lines 231-286): the blind-factor list
starts with the initial secret value. -/
def getSharedSecrets (nodes : List MixConfig) (initialVal : Nat) :
    Except String (List HeaderInitials) :=
  getSharedSecretsAux nodes [initialVal]

/-- The command-building loop of createHeader (sphinx.go lines
103-112) over a list of indices: each index reads `delays[i]` (a panic
if out of range, hence `none`) and tags the last index with the
LastHop flag, all others with the Relay flag. -/
def buildCommandsAux (n : Nat) (delays : List Rat) : List Nat → Option (List Commands)
  | [] => some []
  | i :: is =>
    match delays[i]? with
    | none => none
    | some d =>
      match buildCommandsAux n delays is with
      | none => none
      | some cs =>
        some ({ Delay := d, Flag := if i = n - 1 then lastHopFlag else relayFlag } :: cs)

/-- The command-building loop of createHeader over all node indices. -/
def buildCommands (n : Nat) (delays : List Rat) : Option (List Commands) :=
  buildCommandsAux n delays (List.range n)

/-- State of the encapsulateHeader loop: the last element of the
`routingCommands` accumulator, the `encRouting` variable, and the
current `mac`. -/
abbrev EncState := List Nat × List Nat × List Nat

/-- The layer-encryption loop of encapsulateHeader (sphinx.go lines
164-199).  The fuel argument is the loop counter plus one: with fuel
`k + 1` the body runs for index `i = k`, then recurses with fuel `k`,
so fuel `n - 1` runs the Go loop `for i := n-2; i >= 0; i--`.  An
out-of-range access to `cmds[i]` or `inits[i]` is a panic. -/
def encapsulateSteps (inits : List HeaderInitials) (nodes : List MixConfig)
    (cmds : List Commands) : Nat → EncState → Res EncState
  | 0, st => some (.ok st)
  | k + 1, (lastRC, _, mac) =>
    match nodes[k + 1]?, cmds[k]?, inits[k]? with
    | some nextNode, some cmd, some init =>
      let routing : RoutingInfo :=
        { NextHop := some { Id := nextNode.Id, Address := nextNode.Host ++ ":" ++ nextNode.Port,
                            PubKey := nextNode.PubKey },
          RoutingCommands := some cmd, NextHopMetaData := lastRC, Mac := mac }
      let encKey := KDF init.SecretHash
      let encRouting := AesCtr encKey (marshalRoutingInfo routing)
      let newMac := computeMac (KDF init.SecretHash) encRouting
      encapsulateSteps inits nodes cmds k (encRouting, encRouting, newMac)
    | _, _, _ => none

/-- encapsulateHeader (sphinx.go lines 127-202).  The innermost layer
is built for the destination, then the loop wraps one layer per
remaining node from the inside out.  Accessing the last element of an
empty `commands` or `headerInitials` list is a panic.  Note that when
the loop body never runs (fewer than two nodes) the returned `Beta` is
the untouched nil `encRouting` variable.  The Go source also contains
a branch (line 192) that returns `Header{}` with a nil error when the
second KDF call fails; KDF is an infallible hash, so that branch is
dead and has no counterpart here. -/
def encapsulateHeader (inits : List HeaderInitials) (nodes : List MixConfig)
    (cmds : List Commands) (destination : ClientConfig) : Res Header :=
  match cmds[cmds.length - 1]? with
  | none => none
  | some lastCmd =>
    match inits[inits.length - 1]? with
    | none => none
    | some lastInit =>
      let finalHop : RoutingInfo :=
        { NextHop := some { Id := destination.Id,
                            Address := destination.Host ++ ":" ++ destination.Port,
                            PubKey := [] },
          RoutingCommands := some lastCmd, NextHopMetaData := [], Mac := [] }
      let kdfRes := KDF lastInit.SecretHash
      let encFinalHop := AesCtr kdfRes (marshalRoutingInfo finalHop)
      let mac := computeMac kdfRes encFinalHop
      match encapsulateSteps inits nodes cmds (nodes.length - 1) (encFinalHop, [], mac) with
      | none => none
      | some (.error e) => some (.error e)
      | some (.ok (_, encRouting, macF)) =>
        match inits[0]? with
        | none => none
        | some first => some (.ok { Alpha := first.Alpha, Beta := encRouting, Mac := macF })

/-- createHeader (sphinx.go lines 82-121).  `RandomElement` draws the
ephemeral scalar from the system RNG; it is not under `src/` and is
modelled by taking the scalar `x` as an argument. -/
def createHeader (x : Nat) (nodes : List MixConfig) (delays : List Rat)
    (dest : ClientConfig) : Res (List HeaderInitials × Header) :=
  match getSharedSecrets nodes x with
  | .error e => some (.error e)
  | .ok headerInitials =>
    if headerInitials.length = nodes.length then
      match buildCommands nodes.length delays with
      | none => none
      | some commands =>
        match encapsulateHeader headerInitials nodes commands dest with
        | none => none
        | some (.error e) => some (.error e)
        | some (.ok header) => some (.ok (headerInitials, header))
    else
      some (.error " the number of shared secrets should be the same as the number of traversed nodes")

/-- The payload onion (sphinx.go lines 208-225): the downward loop is
a right fold, so the key of the first node is applied last
(outermost). -/
def contentLayers (inits : List HeaderInitials) (pld : List Nat) : List Nat :=
  inits.foldr (fun t acc => AesCtr (KDF t.SecretHash) acc) pld

/-- encapsulateContent (sphinx.go lines 208-225); AES-CTR never fails
here, so the error is always nil. -/
def encapsulateContent (inits : List HeaderInitials) (message : String) :
    Except String (List Nat) :=
  .ok (contentLayers inits (strBytes message))

/-- The internal node list of PackForwardMessage (sphinx.go lines
54-56): ingress provider, mixes, egress provider. -/
def nodesOf (path : E2EPath) : List MixConfig :=
  path.IngressProvider :: (path.Mixes ++ [path.EgressProvider])

/-- PackForwardMessage (sphinx.go lines 53-71), with the ephemeral
scalar made explicit (see `createHeader`). -/
def PackForwardMessage (x : Nat) (path : E2EPath) (delays : List Rat)
    (message : String) : Res SphinxPacket :=
  match createHeader x (nodesOf path) delays path.Recipient with
  | none => none
  | some (.error e) => some (.error e)
  | some (.ok (headerInitials, header)) =>
    match encapsulateContent headerInitials message with
    | .error e => some (.error e)
    | .ok payload => some (.ok { Hdr := some header, Pld := payload })

/-- readBeta (sphinx.go lines 449-456): dereferences `beta.NextHop`
and `beta.RoutingCommands` unconditionally; a nil field is a runtime
panic, modelled by `none`. -/
def readBeta (beta : RoutingInfo) : Option (Hop × Commands × List Nat × List Nat) :=
  match beta.NextHop, beta.RoutingCommands with
  | some nextHop, some commands => some (nextHop, commands, beta.NextHopMetaData, beta.Mac)
  | _, _ => none

/-- ProcessSphinxHeader (sphinx.go lines 396-446). -/
def ProcessSphinxHeader (packet : Header) (privKey : Nat) : Res (Hop × Commands × Header) :=
  let alpha := packet.Alpha
  let beta := packet.Beta
  let mac := packet.Mac
  let sharedSecret := scalarMult privKey alpha
  let aesS := KDF sharedSecret
  let encKey := KDF aesS
  let recomputedMac := computeMac encKey beta
  if recomputedMac = mac then
    let blinder := computeBlindingFactor aesS
    let newAlpha := scalarMult blinder alpha
    let decBeta := AesCtr encKey beta
    match unmarshalRoutingInfo decBeta with
    | none => some (.error "unmarshal of beta failed")
    | some routingInfo =>
      match readBeta routingInfo with
      | none => none
      | some (nextHop, commands, nextBeta, nextMac) =>
        some (.ok (nextHop, commands, { Alpha := newAlpha, Beta := nextBeta, Mac := nextMac }))
  else some (.error "packet processing error: MACs are not matching")

/-- ProcessSphinxPayload (sphinx.go lines 461-482); AES-CTR never
fails here, so the error is always nil. -/
def ProcessSphinxPayload (alpha : Nat) (payload : List Nat) (privKey : Nat) :
    Except String (List Nat) :=
  let sharedSecret := scalarMult privKey alpha
  let aesS := KDF sharedSecret
  let decKey := KDF aesS
  .ok (AesCtr decKey payload)

/-- ProcessSphinxPacket (sphinx.go lines 357-387).  Note that
`*packet.Hdr` is dereferenced without a nil check after
unmarshalling: a packet without a header field is a runtime panic. -/
def ProcessSphinxPacket (packetBytes : List Nat) (privKey : Nat) :
    Res (Hop × Commands × List Nat) :=
  match unmarshalPacket packetBytes with
  | none => some (.error "unmarshal of packet failed")
  | some packet =>
    match packet.Hdr with
    | none => none
    | some hdr =>
      match ProcessSphinxHeader hdr privKey with
      | none => none
      | some (.error e) => some (.error e)
      | some (.ok (hop, commands, newHeader)) =>
        match ProcessSphinxPayload hdr.Alpha packet.Pld privKey with
        | .error e => some (.error e)
        | .ok newPayload =>
          some (.ok (hop, commands, marshalPacket { Hdr := some newHeader, Pld := newPayload }))

end Sphinx

namespace Sphinx

/-- The public key bytes corresponding to a private scalar: the
32-byte serialization of the clamped scalar times the base point. -/
def pubkeyOf (p : Nat) : List Nat := natToBytes 32 (clamp p)

/-- The Hop record a relay receives for the next node (as built in
the encapsulateHeader loop, sphinx.go lines 166-168). -/
def hopOfNode (m : MixConfig) : Hop :=
  { Id := m.Id, Address := m.Host ++ ":" ++ m.Port, PubKey := m.PubKey }

/-- The Hop record of the final destination (sphinx.go lines
132-134). -/
def hopOfDest (c : ClientConfig) : Hop :=
  { Id := c.Id, Address := c.Host ++ ":" ++ c.Port, PubKey := [] }

/-- The nested layer structure of the onion header: the pair
`(E_i, mac_i)` of the outermost remaining ciphertext and its MAC, for
the suffix of the path described by the three lists. -/
def sphinxLayers (dest : ClientConfig) :
    List MixConfig → List Commands → List HeaderInitials → List Nat × List Nat
  | [_], c :: _, t :: _ =>
    let e := AesCtr (KDF t.SecretHash) (marshalRoutingInfo
      { NextHop := some (hopOfDest dest), RoutingCommands := some c,
        NextHopMetaData := [], Mac := [] })
    (e, computeMac (KDF t.SecretHash) e)
  | _ :: n1 :: rest, c :: cmds, t :: inits =>
    let p := sphinxLayers dest (n1 :: rest) cmds inits
    let e := AesCtr (KDF t.SecretHash) (marshalRoutingInfo
      { NextHop := some (hopOfNode n1), RoutingCommands := some c,
        NextHopMetaData := p.1, Mac := p.2 })
    (e, computeMac (KDF t.SecretHash) e)
  | _, _, _ => ([], [])

/-- The command list produced by the createHeader loop when every
delay index is in range: delay `i` with the Relay flag, except the
last index which carries the LastHop flag. -/
def roundTripCommands (n : Nat) (delays : List Rat) : List Commands :=
  (List.range n).map
    (fun i => { Delay := delays.getD i 0, Flag := if i = n - 1 then lastHopFlag else relayFlag })

/-- The journey of a packet (spec §8): process the packet bytes with
each private key in path order, collecting the returned hop and
command of every relay and the final packet bytes. -/
def processSeq : List Nat → List Nat → Res (List (Hop × Commands) × List Nat)
  | [], bytes => some (.ok ([], bytes))
  | p :: ps, bytes =>
    match ProcessSphinxPacket bytes p with
    | none => none
    | some (.error e) => some (.error e)
    | some (.ok (hop, cmd, bytes2)) =>
      match processSeq ps bytes2 with
      | none => none
      | some (.error e) => some (.error e)
      | some (.ok (results, fb)) => some (.ok ((hop, cmd) :: results, fb))

/-- The list of per-hop results of a journey, when it succeeded. -/
def seqResults (r : Res (List (Hop × Commands) × List Nat)) : Option (List (Hop × Commands)) :=
  match r with
  | some (.ok (l, _)) => some l
  | _ => none

/-- The payload carried by the final packet of a journey, when it
succeeded. -/
def seqFinalPayload (r : Res (List (Hop × Commands) × List Nat)) : Option (List Nat) :=
  match r with
  | some (.ok (_, bs)) => (unmarshalPacket bs).map SphinxPacket.Pld
  | _ => none

/-- The wire bytes of a successfully built packet (empty on a build
failure). -/
def packBytes (x : Nat) (path : E2EPath) (delays : List Rat) (msg : String) : List Nat :=
  match PackForwardMessage x path delays msg with
  | some (.ok p) => marshalPacket p
  | _ => []

/-- The beta length of a successfully built header. -/
def betaLenOf (r : Res (List HeaderInitials × Header)) : Option Nat :=
  match r with
  | some (.ok (_, h)) => some h.Beta.length
  | _ => none

/-- The beta length of the header returned by one processing step. -/
def procBetaLen (r : Res (Hop × Commands × Header)) : Option Nat :=
  match r with
  | some (.ok (_, _, h)) => some h.Beta.length
  | _ => none

/-- Whether a result is the MacMismatch error of ProcessSphinxHeader
(sphinx.go line 419). -/
def isMacError {α : Type} (r : Res α) : Bool :=
  match r with
  | some (.error e) => if e = "packet processing error: MACs are not matching" then true else false
  | _ => false

/-- Whether a result is a success. -/
def isOkRes {α : Type} (r : Res α) : Bool :=
  match r with
  | some (.ok _) => true
  | _ => false

/-- Whether a header-build result avoids the forbidden combination of
a nil error with a zero-value header. -/
def okHeaderNotZero (r : Res Header) : Bool :=
  match r with
  | some (.ok h) => if h = zeroHeader then false else true
  | _ => true

/-- Written after the spec (§4.3) recurrence: the per-hop tuples
`(alpha_i, s_i, b_i, k_i)` with `s_i = expo(P_i, [x, b_0, …, b_{i-1}])`
computed by iterated scalar multiplication, `k_i = KDF(s_i)`,
`b_i = bytes_to_scalar(compute_shared_secret_hash(k_i, fixed_iv))`,
carrying the scalar list that starts as `[x]`. -/
def specSharedSecrets : List MixConfig → List Nat → List HeaderInitials
  | [], _ => []
  | nd :: rest, scalars =>
    { Alpha := expo 1 scalars,
      Secret := expo (bytesToNat nd.PubKey) scalars,
      Blinder := bytesToNat (computeSharedSecretHash (KDF (expo (bytesToNat nd.PubKey) scalars)) initialVector),
      SecretHash := KDF (expo (bytesToNat nd.PubKey) scalars) } ::
      specSharedSecrets rest
        (scalars ++ [bytesToNat (computeSharedSecretHash (KDF (expo (bytesToNat nd.PubKey) scalars)) initialVector)])

/-- A first concrete relay (private scalar 11). -/
def mixW1 : MixConfig :=
  { Id := "N0", Host := "localhost", Port := "9998", PubKey := pubkeyOf 11 }

/-- A second concrete relay (private scalar 13). -/
def mixW2 : MixConfig :=
  { Id := "N1", Host := "localhost", Port := "9997", PubKey := pubkeyOf 13 }

/-- A third concrete relay (private scalar 17). -/
def mixW3 : MixConfig :=
  { Id := "N2", Host := "localhost", Port := "9996", PubKey := pubkeyOf 17 }

/-- A concrete recipient. -/
def destW : ClientConfig := { Id := "Recipient", Host := "localhost", Port := "9999" }

/-- A concrete two-relay path. -/
def pathW : E2EPath :=
  { IngressProvider := mixW1, Mixes := [], EgressProvider := mixW2, Recipient := destW }

/-- The packet built over `pathW` with ephemeral scalar 7, zero delays
and message `"hello"`. -/
def pktW : SphinxPacket :=
  match PackForwardMessage 7 pathW [0, 0] "hello" with
  | some (.ok p) => p
  | _ => { Hdr := none, Pld := [] }

/-- The header of `pktW`. -/
def hdrW : Header :=
  match pktW.Hdr with
  | some h => h
  | none => zeroHeader

/-- The header built over the two-relay list (used to compare beta
lengths across path lengths). -/
def hdrC2 : Header :=
  match createHeader 7 [mixW1, mixW2] [0, 0] destW with
  | some (.ok (_, h)) => h
  | _ => zeroHeader

/-- The single-node build of spec scenario A: path `[P0]`, delay
`[0.0]`. -/
def c6Build : Res (List HeaderInitials × Header) := createHeader 7 [mixW1] [0] destW

/-- The marshalled single-hop packet of scenario A with message
`"hello"`. -/
def c6Bytes : List Nat :=
  match c6Build with
  | some (.ok (inits, h)) =>
    marshalPacket { Hdr := some h, Pld := contentLayers inits (strBytes "hello") }
  | _ => []

/-- The encryption key a relay with private scalar 11 derives from an
incoming alpha of 7; anyone can compute it from the relay public key
as `scalarMult 7 pubkey`. -/
def c10EncKey : Nat := KDF (KDF (scalarMult 11 7))

/-- A beta field that authenticates under `c10EncKey` but decrypts to
a RoutingInfo with absent NextHop and RoutingCommands fields. -/
def c10Beta : List Nat :=
  AesCtr c10EncKey (marshalRoutingInfo
    { NextHop := none, RoutingCommands := none, NextHopMetaData := [], Mac := [] })

/-- A crafted packet whose MAC verifies at the relay with private
scalar 11 and whose decrypted beta lacks the NextHop field. -/
def c10Bytes : List Nat :=
  marshalPacket
    { Hdr := some { Alpha := 7, Beta := c10Beta, Mac := computeMac c10EncKey c10Beta },
      Pld := [] }

/-- clamp is positive. -/
theorem clamp_pos (n : Nat) : 0 < clamp n :=
  Nat.lt_of_lt_of_le (Nat.two_pow_pos 254) (Nat.le_add_right _ _)

/-- clamp stays below 2 ^ 256. -/
theorem clamp_lt (n : Nat) : clamp n < 2 ^ 256 := by
  have h1 : n % 2 ^ 254 < 2 ^ 254 := Nat.mod_lt _ (Nat.two_pow_pos 254)
  have h2 : n % 2 ^ 254 / 8 * 8 ≤ n % 2 ^ 254 := Nat.div_mul_le_self _ _
  have h3 : clamp n < 2 ^ 254 + 2 ^ 254 :=
    Nat.add_lt_add_left (Nat.lt_of_le_of_lt h2 h1) _
  have h4 : 2 ^ 254 + 2 ^ 254 ≤ 2 ^ 256 := by norm_num
  exact Nat.lt_of_lt_of_le h3 h4

/-- natToBytes produces exactly `len` bytes. -/
theorem natToBytes_length (len n : Nat) : (natToBytes len n).length = len := by
  induction len generalizing n with
  | zero => rfl
  | succ k ih => simp [natToBytes, ih]

/-- bytesToNat inverts natToBytes on values that fit. -/
theorem bytesToNat_natToBytes (len n : Nat) (h : n < 2 ^ (8 * len)) :
    bytesToNat (natToBytes len n) = n := by
  induction len generalizing n with
  | zero =>
    interval_cases n
    rfl
  | succ k ih =>
    have hdiv : n / 256 < 2 ^ (8 * k) := by
      rw [Nat.div_lt_iff_lt_mul (by norm_num : 0 < 256)]
      calc n < 2 ^ (8 * (k + 1)) := h
        _ = 2 ^ (8 * k) * 256 := by rw [Nat.mul_succ, pow_add]; norm_num
    simp [natToBytes, bytesToNat, ih _ hdiv, Nat.mod_add_div]

/-- pubkeyOf has the required public key size. -/
theorem pubkeyOf_length (p : Nat) : (pubkeyOf p).length = PublicKeySize := by
  simp [pubkeyOf, natToBytes_length, PublicKeySize]

/-- bytesToNat recovers the clamped scalar from pubkeyOf. -/
theorem bytesToNat_pubkeyOf (p : Nat) : bytesToNat (pubkeyOf p) = clamp p :=
  bytesToNat_natToBytes 32 _ (clamp_lt p)

/-- expo unfolds over a snoc: applying one more scalar multiplies it
last. -/
theorem expo_append (base s : Nat) (l : List Nat) :
    expo base (l ++ [s]) = scalarMult s (expo base l) := by
  simp [expo, List.foldl_append]

/-- expo is the product of the clamped scalars times the base. -/
theorem expo_eq_mul (l : List Nat) (base : Nat) :
    expo base l = (l.map clamp).prod * base := by
  induction l generalizing base with
  | nil => simp [expo]
  | cons s l ih =>
    show expo (scalarMult s base) l = _
    rw [ih, List.map_cons, List.prod_cons, scalarMult]
    ring

/-- Exchanging the roles of the private scalar and the accumulated
blinding chain: processing and building derive the same shared
secret. -/
theorem scalarMult_expo_one (p : Nat) (l : List Nat) :
    scalarMult p (expo 1 l) = expo (clamp p) l := by
  rw [expo_eq_mul, expo_eq_mul, scalarMult]
  ring

/-- KDF is injective (idealized hash). -/
theorem KDF_injective {a b : Nat} (h : KDF a = KDF b) : a = b :=
  (Nat.pair_eq_pair.mp h).2

/-- aesCtrIV preserves length. -/
theorem aesCtrIV_length (key iv : Nat) (l : List Nat) :
    (aesCtrIV key iv l).length = l.length := by
  simp [aesCtrIV]

/-- Keyed pointwise involutions cancel across matching zipWith
applications. -/
theorem zipWith_involution (f : Nat → Nat → Nat) (hf : ∀ i b, f i (f i b) = b) :
    ∀ (is l : List Nat), is.length = l.length →
      List.zipWith f is (List.zipWith f is l) = l := by
  intro is
  induction is with
  | nil =>
    intro l h
    have hl : l = [] := List.length_eq_zero.mp h.symm
    subst hl
    rfl
  | cons i is ih =>
    intro l h
    cases l with
    | nil => simp at h
    | cons b l =>
      simp only [List.zipWith_cons_cons, hf]
      rw [ih l (by simpa using h)]

/-- AES-CTR under a fixed key and IV is an involution. -/
theorem aesCtrIV_aesCtrIV (key iv : Nat) (l : List Nat) :
    aesCtrIV key iv (aesCtrIV key iv l) = l := by
  have hlen := aesCtrIV_length key iv l
  rw [aesCtrIV, hlen]
  rw [aesCtrIV]
  exact zipWith_involution _ (fun i b => by simp [Nat.xor_assoc]) _ _ (by simp)

/-- AesCtr decrypts what it encrypts. -/
theorem aesCtr_aesCtr (key : Nat) (l : List Nat) : AesCtr key (AesCtr key l) = l :=
  aesCtrIV_aesCtrIV key 0 l

/-- AesCtr preserves length. -/
theorem aesCtr_length (key : Nat) (l : List Nat) : (AesCtr key l).length = l.length :=
  aesCtrIV_length key 0 l

/-- The payload onion preserves length. -/
theorem contentLayers_length (inits : List HeaderInitials) (pld : List Nat) :
    (contentLayers inits pld).length = pld.length := by
  induction inits with
  | nil => rfl
  | cons t inits ih => simp [contentLayers, aesCtr_length] at ih ⊢; exact ih

/-- decBytes inverts encBytes and leaves the remainder. -/
theorem decBytes_encBytes (bs rest : List Nat) :
    decBytes (encBytes bs ++ rest) = some (bs, rest) := by
  show decBytes (bs.length :: (bs ++ rest)) = some (bs, rest)
  rw [decBytes]
  rw [if_pos (by simp)]
  rw [List.take_left, List.drop_left]

/-- decBytes inverts encBytes at the end of the buffer. -/
theorem decBytes_encBytes_nil (bs : List Nat) : decBytes (encBytes bs) = some (bs, []) := by
  have h := decBytes_encBytes bs []
  simpa using h

/-- decString inverts encString. -/
theorem decString_encString (s : String) (rest : List Nat) :
    decString (encString s ++ rest) = some (s, rest) := by
  rw [decString, encString, decBytes_encBytes]
  simp only [strBytes, List.map_map]
  have hc : Char.ofNat ∘ Char.toNat = id := funext fun c => Char.ofNat_toNat c
  rw [hc, List.map_id]

/-- decInt inverts encInt. -/
theorem decInt_encInt (z : Int) : decInt (encInt z) = z := by
  rw [encInt, decInt]
  by_cases h : 0 ≤ z
  · rw [if_pos h]
    have h2 : 2 * z.toNat % 2 = 0 := Nat.mul_mod_right 2 _
    rw [if_pos h2]
    omega
  · rw [if_neg h]
    have hm : 1 ≤ (-z).toNat := by omega
    have h2 : (2 * (-z).toNat - 1) % 2 = 1 := by omega
    rw [if_neg (by omega)]
    omega

/-- decOpt decodes an absent optional field. -/
theorem decOpt_encOpt_none {α : Type} (f : List Nat → Option (α × List Nat))
    (g : α → List Nat) (rest : List Nat) :
    decOpt f (encOpt g none ++ rest) = some (none, rest) := by
  rfl

/-- decOpt decodes a present optional field provided the body decoder
inverts the body encoder. -/
theorem decOpt_encOpt_some {α : Type} (f : List Nat → Option (α × List Nat))
    (g : α → List Nat) (a : α) (rest : List Nat)
    (hf : f (g a ++ rest) = some (a, rest)) :
    decOpt f (encOpt g (some a) ++ rest) = some (some a, rest) := by
  show decOpt f (1 :: (g a ++ rest)) = some (some a, rest)
  rw [decOpt]
  simp [hf]

/-- decHop inverts encHop. -/
theorem decHop_encHop (h : Hop) (rest : List Nat) :
    decHop (encHop h ++ rest) = some (h, rest) := by
  simp [decHop, encHop, List.append_assoc, decString_encString, decBytes_encBytes]

/-- decCommands inverts encCommands. -/
theorem decCommands_encCommands (c : Commands) (rest : List Nat) :
    decCommands (encCommands c ++ rest) = some (c, rest) := by
  show decCommands (encInt c.Delay.num :: c.Delay.den :: (encBytes c.Flag ++ rest)) = _
  rw [decCommands, decBytes_encBytes]
  simp [decInt_encInt, Rat.mkRat_self]

/-- unmarshalRoutingInfo inverts marshalRoutingInfo. -/
theorem unmarshalRoutingInfo_marshal (r : RoutingInfo) :
    unmarshalRoutingInfo (marshalRoutingInfo r) = some r := by
  obtain ⟨nh, rc, meta, mac⟩ := r
  cases nh <;> cases rc <;>
    simp [marshalRoutingInfo, unmarshalRoutingInfo, List.append_assoc,
      decOpt_encOpt_none, decBytes_encBytes, decBytes_encBytes_nil,
      decOpt_encOpt_some _ _ _ _ (decHop_encHop _ _),
      decOpt_encOpt_some _ _ _ _ (decCommands_encCommands _ _)]

/-- decHeader inverts encHeader. -/
theorem decHeader_encHeader (h : Header) (rest : List Nat) :
    decHeader (encHeader h ++ rest) = some (h, rest) := by
  obtain ⟨a, b, m⟩ := h
  simp [decHeader, encHeader, List.append_assoc, decBytes_encBytes]

/-- unmarshalPacket inverts marshalPacket. -/
theorem unmarshalPacket_marshal (p : SphinxPacket) :
    unmarshalPacket (marshalPacket p) = some p := by
  obtain ⟨hdr, pld⟩ := p
  cases hdr <;>
    simp [marshalPacket, unmarshalPacket, decOpt_encOpt_none, decBytes_encBytes_nil,
      decOpt_encOpt_some _ _ _ _ (decHeader_encHeader _ _)]

end Sphinx

namespace Sphinx

/-- Inversion of one step of the getSharedSecrets loop. -/
theorem getSharedSecretsAux_cons_inv (n0 : MixConfig) (rest : List MixConfig)
    (bf : List Nat) (inits : List HeaderInitials)
    (h : getSharedSecretsAux (n0 :: rest) bf = .ok inits) :
    n0.PubKey.length = PublicKeySize ∧
    ∃ tl, getSharedSecretsAux rest
        (bf ++ [computeBlindingFactor (KDF (expo (bytesToNat n0.PubKey) bf))]) = .ok tl ∧
      inits = { Alpha := expoGroupBase bf, Secret := expo (bytesToNat n0.PubKey) bf,
                Blinder := computeBlindingFactor (KDF (expo (bytesToNat n0.PubKey) bf)),
                SecretHash := KDF (expo (bytesToNat n0.PubKey) bf) } :: tl := by
  simp only [getSharedSecretsAux] at h
  by_cases hk : n0.PubKey.length = PublicKeySize
  · rw [if_pos hk] at h
    refine ⟨hk, ?_⟩
    cases hrec : getSharedSecretsAux rest
        (bf ++ [computeBlindingFactor (KDF (expo (bytesToNat n0.PubKey) bf))]) with
    | error e => rw [hrec] at h; cases h
    | ok tl =>
      rw [hrec] at h
      injection h with h2
      exact ⟨tl, rfl, h2.symm⟩
  · rw [if_neg hk] at h
    cases h

/-- getSharedSecrets returns one tuple per node. -/
theorem getSharedSecretsAux_length :
    ∀ (nodes : List MixConfig) (bf : List Nat) (inits : List HeaderInitials),
      getSharedSecretsAux nodes bf = .ok inits → inits.length = nodes.length := by
  intro nodes
  induction nodes with
  | nil =>
    intro bf inits h
    rw [getSharedSecretsAux] at h
    injection h with h2
    rw [← h2]
    rfl
  | cons n0 rest ih =>
    intro bf inits h
    obtain ⟨-, tl, hrec, hi⟩ := getSharedSecretsAux_cons_inv n0 rest bf inits h
    subst hi
    simp [ih _ _ hrec]

/-- getSharedSecrets succeeds when every public key has the right
size. -/
theorem getSharedSecretsAux_ok :
    ∀ (nodes : List MixConfig) (bf : List Nat),
      (∀ nd ∈ nodes, nd.PubKey.length = PublicKeySize) →
      ∃ inits, getSharedSecretsAux nodes bf = .ok inits := by
  intro nodes
  induction nodes with
  | nil => exact fun bf _ => ⟨[], rfl⟩
  | cons n0 rest ih =>
    intro bf hk
    obtain ⟨tl, htl⟩ := ih (bf ++ [computeBlindingFactor (KDF (expo (bytesToNat n0.PubKey) bf))])
      (fun nd hnd => hk nd (List.mem_cons_of_mem _ hnd))
    refine ⟨{ Alpha := expoGroupBase bf, Secret := expo (bytesToNat n0.PubKey) bf,
              Blinder := computeBlindingFactor (KDF (expo (bytesToNat n0.PubKey) bf)),
              SecretHash := KDF (expo (bytesToNat n0.PubKey) bf) } :: tl, ?_⟩
    simp only [getSharedSecretsAux]
    rw [if_pos (hk n0 (List.mem_cons_self _ _)), htl]

/-- The command-building loop succeeds and produces the relay and
last-hop commands when every index is within the delay list. -/
theorem buildCommandsAux_eq (n : Nat) (delays : List Rat) :
    ∀ is : List Nat, (∀ i ∈ is, i < delays.length) →
      buildCommandsAux n delays is
        = some (is.map fun i =>
            { Delay := delays.getD i 0, Flag := if i = n - 1 then lastHopFlag else relayFlag }) := by
  intro is
  induction is with
  | nil => intro _; rfl
  | cons j is ih =>
    intro hmem
    have hj : j < delays.length := hmem j (List.mem_cons_self _ _)
    rw [buildCommandsAux, List.getElem?_eq_getElem hj,
      ih (fun i hi => hmem i (List.mem_cons_of_mem _ hi))]
    simp [List.getElem?_eq_getElem hj]

/-- The command-building loop panics as soon as one index overruns
the delay list. -/
theorem buildCommandsAux_none (n : Nat) (delays : List Rat) :
    ∀ (is : List Nat) (i : Nat), i ∈ is → delays.length ≤ i →
      buildCommandsAux n delays is = none := by
  intro is
  induction is with
  | nil => intro i hi; cases hi
  | cons j is ih =>
    intro i hi hlen
    rcases List.mem_cons.mp hi with rfl | hmem
    · rw [buildCommandsAux, List.getElem?_eq_none hlen]
    · rw [buildCommandsAux]
      cases hj : delays[j]? with
      | none => rfl
      | some d => rw [ih i hmem hlen]

/-- buildCommands produces roundTripCommands when there are enough
delays. -/
theorem buildCommands_eq (n : Nat) (delays : List Rat) (h : n ≤ delays.length) :
    buildCommands n delays = some (roundTripCommands n delays) := by
  rw [buildCommands, roundTripCommands]
  exact buildCommandsAux_eq n delays _
    (fun i hi => Nat.lt_of_lt_of_le (List.mem_range.mp hi) h)

/-- buildCommands panics when there are fewer delays than nodes. -/
theorem buildCommands_none (n : Nat) (delays : List Rat) (h : delays.length < n) :
    buildCommands n delays = none :=
  buildCommandsAux_none n delays _ delays.length (List.mem_range.mpr h) (Nat.le_refl _)

/-- roundTripCommands has one command per node. -/
theorem roundTripCommands_length (n : Nat) (delays : List Rat) :
    (roundTripCommands n delays).length = n := by
  simp [roundTripCommands]

end Sphinx

namespace Sphinx

/-- One processing step on a packet whose header carries a layer
encrypted and MAC-tagged under the keys derived from the blinded
chain: the relay recomputes the same keys, the MAC verifies, the layer
and one payload layer are peeled, and alpha advances by the blinding
factor. -/
theorem ProcessSphinxPacket_stage (p : Nat) (bf : List Nat) (ri : RoutingInfo)
    (nh : Hop) (rc : Commands) (hnh : ri.NextHop = some nh) (hrc : ri.RoutingCommands = some rc)
    (pld : List Nat) :
    ProcessSphinxPacket (marshalPacket
      { Hdr := some { Alpha := expo 1 bf,
                      Beta := AesCtr (KDF (KDF (expo (clamp p) bf))) (marshalRoutingInfo ri),
                      Mac := computeMac (KDF (KDF (expo (clamp p) bf)))
                        (AesCtr (KDF (KDF (expo (clamp p) bf))) (marshalRoutingInfo ri)) },
        Pld := AesCtr (KDF (KDF (expo (clamp p) bf))) pld }) p
    = some (.ok (nh, rc, marshalPacket
        { Hdr := some { Alpha := expo 1 (bf ++ [computeBlindingFactor (KDF (expo (clamp p) bf))]),
                        Beta := ri.NextHopMetaData, Mac := ri.Mac },
          Pld := pld })) := by
  rw [ProcessSphinxPacket, unmarshalPacket_marshal]
  simp only [ProcessSphinxHeader, ProcessSphinxPayload, scalarMult_expo_one,
    aesCtr_aesCtr, unmarshalRoutingInfo_marshal, readBeta, hnh, hrc,
    eq_self_iff_true, if_true, expo_append]

end Sphinx

namespace Sphinx

/-- The payload onion over no keys is the payload itself. -/
theorem contentLayers_nil (pld : List Nat) : contentLayers [] pld = pld := rfl

/-- The payload onion adds the outermost layer for the first key. -/
theorem contentLayers_cons (t : HeaderInitials) (ts : List HeaderInitials) (pld : List Nat) :
    contentLayers (t :: ts) pld = AesCtr (KDF t.SecretHash) (contentLayers ts pld) := rfl

/-- Processing a layered packet with the matching private keys, one
hop at a time: every hop succeeds, returns the next node of the path
(the destination at the last hop) together with its command, and the
final packet carries the fully peeled payload. -/
theorem processSeq_stage (dest : ClientConfig) :
    ∀ (nodes : List MixConfig) (privs : List Nat) (cmds : List Commands)
      (inits : List HeaderInitials) (bf : List Nat) (pld : List Nat),
      nodes ≠ [] →
      nodes.map MixConfig.PubKey = privs.map pubkeyOf →
      cmds.length = nodes.length →
      getSharedSecretsAux nodes bf = .ok inits →
      ∃ fb,
        processSeq privs (marshalPacket
          { Hdr := some { Alpha := expo 1 bf,
                          Beta := (sphinxLayers dest nodes cmds inits).1,
                          Mac := (sphinxLayers dest nodes cmds inits).2 },
            Pld := contentLayers inits pld })
          = some (.ok (((nodes.drop 1).map hopOfNode ++ [hopOfDest dest]).zip cmds, fb))
        ∧ (unmarshalPacket fb).map SphinxPacket.Pld = some pld := by
  intro nodes
  induction nodes with
  | nil => intro privs cmds inits bf pld hne; exact absurd rfl hne
  | cons n0 rest ih =>
    intro privs cmds inits bf pld _ hkeys hlen hAux
    cases privs with
    | nil => simp at hkeys
    | cons p0 privs2 =>
      cases cmds with
      | nil => simp at hlen
      | cons c0 cmds2 =>
        simp only [List.map_cons, List.cons.injEq] at hkeys
        obtain ⟨hk0, hkrest⟩ := hkeys
        obtain ⟨-, tl, hAuxTl, hinits⟩ := getSharedSecretsAux_cons_inv n0 rest bf inits hAux
        subst hinits
        have hlen2 : cmds2.length = rest.length := by simpa using hlen
        have hbn : bytesToNat n0.PubKey = clamp p0 := by rw [hk0, bytesToNat_pubkeyOf]
        rw [hbn] at hAuxTl
        cases rest with
        | nil =>
          have hp2 : privs2 = [] := by
            cases privs2 with
            | nil => rfl
            | cons a b => simp at hkrest
          have hc2 : cmds2 = [] := List.length_eq_zero.mp hlen2
          subst hp2
          subst hc2
          have htl : tl = [] := by
            rw [getSharedSecretsAux] at hAuxTl
            injection hAuxTl with h2
            exact h2.symm
          subst htl
          refine ⟨marshalPacket
            { Hdr := some { Alpha := expo 1 (bf ++ [computeBlindingFactor (KDF (expo (clamp p0) bf))]),
                            Beta := [], Mac := [] },
              Pld := pld }, ?_, ?_⟩
          · simp only [sphinxLayers, contentLayers_cons, contentLayers_nil, expoGroupBase, hbn]
            rw [processSeq]
            rw [ProcessSphinxPacket_stage p0 bf
              { NextHop := some (hopOfDest dest), RoutingCommands := some c0,
                NextHopMetaData := [], Mac := [] } (hopOfDest dest) c0 rfl rfl pld]
            rfl
          · rw [unmarshalPacket_marshal]
            rfl
        | cons n1 rest2 =>
          obtain ⟨fb, hseq, hpld⟩ := ih privs2 cmds2 tl
            (bf ++ [computeBlindingFactor (KDF (expo (clamp p0) bf))]) pld
            (List.cons_ne_nil _ _) hkrest hlen2 hAuxTl
          refine ⟨fb, ?_, hpld⟩
          simp only [sphinxLayers, contentLayers_cons, expoGroupBase, hbn, processSeq,
            ProcessSphinxPacket_stage p0 bf
              { NextHop := some (hopOfNode n1), RoutingCommands := some c0,
                NextHopMetaData := (sphinxLayers dest (n1 :: rest2) cmds2 tl).1,
                Mac := (sphinxLayers dest (n1 :: rest2) cmds2 tl).2 }
              (hopOfNode n1) c0 rfl rfl (contentLayers tl pld),
            hseq]
          simp

end Sphinx

namespace Sphinx

/-- The encapsulateHeader loop computes, from the innermost layer
state, exactly the nested layer structure `sphinxLayers`; with zero
iterations the `encRouting` variable keeps its initial value. -/
theorem encapsulateSteps_eq (dest : ClientConfig) (nodes : List MixConfig)
    (cmds : List Commands) (inits : List HeaderInitials)
    (hc : cmds.length = nodes.length) (hn : inits.length = nodes.length) :
    ∀ k, k + 1 ≤ nodes.length → ∀ b0,
      encapsulateSteps inits nodes cmds k
          ((sphinxLayers dest (nodes.drop k) (cmds.drop k) (inits.drop k)).1, b0,
           (sphinxLayers dest (nodes.drop k) (cmds.drop k) (inits.drop k)).2)
        = some (.ok ((sphinxLayers dest nodes cmds inits).1,
            if k = 0 then b0 else (sphinxLayers dest nodes cmds inits).1,
            (sphinxLayers dest nodes cmds inits).2)) := by
  intro k
  induction k with
  | zero =>
    intro _ b0
    simp [encapsulateSteps, List.drop_zero]
  | succ k ih =>
    intro hk b0
    have hk1 : k + 1 < nodes.length := hk
    have hk0 : k < nodes.length := Nat.lt_of_succ_lt hk1
    have hkc : k < cmds.length := by omega
    have hki : k < inits.length := by omega
    have hd1 : nodes.drop (k + 1) = nodes[k + 1] :: nodes.drop (k + 2) :=
      List.drop_eq_getElem_cons hk1
    have hdn : nodes.drop k = nodes[k] :: nodes[k + 1] :: nodes.drop (k + 2) := by
      rw [List.drop_eq_getElem_cons hk0, hd1]
    have hdc : cmds.drop k = cmds[k] :: cmds.drop (k + 1) := List.drop_eq_getElem_cons hkc
    have hdi : inits.drop k = inits[k] :: inits.drop (k + 1) := List.drop_eq_getElem_cons hki
    have hL : sphinxLayers dest (nodes.drop k) (cmds.drop k) (inits.drop k)
        = (AesCtr (KDF inits[k].SecretHash) (marshalRoutingInfo
             { NextHop := some (hopOfNode nodes[k + 1]), RoutingCommands := some cmds[k],
               NextHopMetaData :=
                 (sphinxLayers dest (nodes.drop (k + 1)) (cmds.drop (k + 1)) (inits.drop (k + 1))).1,
               Mac :=
                 (sphinxLayers dest (nodes.drop (k + 1)) (cmds.drop (k + 1)) (inits.drop (k + 1))).2 }),
           computeMac (KDF inits[k].SecretHash) (AesCtr (KDF inits[k].SecretHash) (marshalRoutingInfo
             { NextHop := some (hopOfNode nodes[k + 1]), RoutingCommands := some cmds[k],
               NextHopMetaData :=
                 (sphinxLayers dest (nodes.drop (k + 1)) (cmds.drop (k + 1)) (inits.drop (k + 1))).1,
               Mac :=
                 (sphinxLayers dest (nodes.drop (k + 1)) (cmds.drop (k + 1)) (inits.drop (k + 1))).2 }))) := by
      rw [hdn, hdc, hdi]
      simp only [sphinxLayers]
      rw [← hd1]
    have hL1 : (sphinxLayers dest (nodes.drop k) (cmds.drop k) (inits.drop k)).1
        = AesCtr (KDF inits[k].SecretHash) (marshalRoutingInfo
            { NextHop := some (hopOfNode nodes[k + 1]), RoutingCommands := some cmds[k],
              NextHopMetaData :=
                (sphinxLayers dest (nodes.drop (k + 1)) (cmds.drop (k + 1)) (inits.drop (k + 1))).1,
              Mac :=
                (sphinxLayers dest (nodes.drop (k + 1)) (cmds.drop (k + 1)) (inits.drop (k + 1))).2 }) := by
      rw [hL]
    have hL2 : (sphinxLayers dest (nodes.drop k) (cmds.drop k) (inits.drop k)).2
        = computeMac (KDF inits[k].SecretHash) (AesCtr (KDF inits[k].SecretHash) (marshalRoutingInfo
            { NextHop := some (hopOfNode nodes[k + 1]), RoutingCommands := some cmds[k],
              NextHopMetaData :=
                (sphinxLayers dest (nodes.drop (k + 1)) (cmds.drop (k + 1)) (inits.drop (k + 1))).1,
              Mac :=
                (sphinxLayers dest (nodes.drop (k + 1)) (cmds.drop (k + 1)) (inits.drop (k + 1))).2 })) := by
      rw [hL]
    simp only [encapsulateSteps, List.getElem?_eq_getElem hk1, List.getElem?_eq_getElem hkc,
      List.getElem?_eq_getElem hki, hopOfNode]
    have hL2x : (sphinxLayers dest (nodes.drop k) (cmds.drop k) (inits.drop k)).2
        = computeMac (KDF inits[k].SecretHash)
            (sphinxLayers dest (nodes.drop k) (cmds.drop k) (inits.drop k)).1 := by
      rw [hL1]
      exact hL2
    rw [← hopOfNode]
    rw [← hL1, ← hL2x]
    rw [ih (by omega) ((sphinxLayers dest (nodes.drop k) (cmds.drop k) (inits.drop k)).1)]
    by_cases hk00 : k = 0
    · simp [hk00, List.drop_zero]
    · simp [hk00]

end Sphinx

namespace Sphinx

/-- encapsulateHeader on matching-length inputs returns the first
tuple alpha, the outermost layer ciphertext and its MAC; for a single
node the loop never runs, so Beta is the untouched nil variable while
the MAC still covers the innermost ciphertext. -/
theorem encapsulateHeader_eq (dest : ClientConfig) (nodes : List MixConfig)
    (cmds : List Commands) (t0 : HeaderInitials) (tl : List HeaderInitials)
    (hc : cmds.length = nodes.length) (hn : (t0 :: tl).length = nodes.length) :
    encapsulateHeader (t0 :: tl) nodes cmds dest
      = some (.ok { Alpha := t0.Alpha,
                    Beta := if nodes.length = 1 then []
                            else (sphinxLayers dest nodes cmds (t0 :: tl)).1,
                    Mac := (sphinxLayers dest nodes cmds (t0 :: tl)).2 }) := by
  have hpos : 1 ≤ nodes.length := by rw [← hn]; simp
  have hlast : nodes.length - 1 < nodes.length := by omega
  have hlastc : cmds.length - 1 < cmds.length := by omega
  have hlasti : (t0 :: tl).length - 1 < (t0 :: tl).length := by simp
  have hce : nodes.length - 1 = cmds.length - 1 := by rw [hc]
  have hie : nodes.length - 1 = (t0 :: tl).length - 1 := by rw [hn]
  have hdropn : nodes.drop (nodes.length - 1) = [nodes[nodes.length - 1]] := by
    rw [List.drop_eq_getElem_cons hlast,
      show nodes.length - 1 + 1 = nodes.length from by omega, List.drop_length]
  have hdropc : cmds.drop (nodes.length - 1) = [cmds[cmds.length - 1]] := by
    rw [hce, List.drop_eq_getElem_cons hlastc,
      show cmds.length - 1 + 1 = cmds.length from by omega, List.drop_length]
  have hdropi : (t0 :: tl).drop (nodes.length - 1)
      = [(t0 :: tl)[(t0 :: tl).length - 1]] := by
    rw [hie, List.drop_eq_getElem_cons hlasti,
      show (t0 :: tl).length - 1 + 1 = (t0 :: tl).length from by omega, List.drop_length]
  have hLs : sphinxLayers dest (nodes.drop (nodes.length - 1)) (cmds.drop (nodes.length - 1))
        ((t0 :: tl).drop (nodes.length - 1))
      = (AesCtr (KDF ((t0 :: tl)[(t0 :: tl).length - 1]).SecretHash) (marshalRoutingInfo
           { NextHop := some (hopOfDest dest), RoutingCommands := some cmds[cmds.length - 1],
             NextHopMetaData := [], Mac := [] }),
         computeMac (KDF ((t0 :: tl)[(t0 :: tl).length - 1]).SecretHash)
           (AesCtr (KDF ((t0 :: tl)[(t0 :: tl).length - 1]).SecretHash) (marshalRoutingInfo
             { NextHop := some (hopOfDest dest), RoutingCommands := some cmds[cmds.length - 1],
               NextHopMetaData := [], Mac := [] }))) := by
    rw [hdropn, hdropc, hdropi]
    simp only [sphinxLayers]
  have hE1 : (sphinxLayers dest (nodes.drop (nodes.length - 1)) (cmds.drop (nodes.length - 1))
        ((t0 :: tl).drop (nodes.length - 1))).1
      = AesCtr (KDF ((t0 :: tl)[(t0 :: tl).length - 1]).SecretHash) (marshalRoutingInfo
          { NextHop := some (hopOfDest dest), RoutingCommands := some cmds[cmds.length - 1],
            NextHopMetaData := [], Mac := [] }) := by
    rw [hLs]
  have hE2 : (sphinxLayers dest (nodes.drop (nodes.length - 1)) (cmds.drop (nodes.length - 1))
        ((t0 :: tl).drop (nodes.length - 1))).2
      = computeMac (KDF ((t0 :: tl)[(t0 :: tl).length - 1]).SecretHash)
          (sphinxLayers dest (nodes.drop (nodes.length - 1)) (cmds.drop (nodes.length - 1))
            ((t0 :: tl).drop (nodes.length - 1))).1 := by
    rw [hLs]
  simp only [encapsulateHeader, List.getElem?_eq_getElem hlastc, List.getElem?_eq_getElem hlasti]
  rw [← hopOfDest]
  rw [← hE1, ← hE2]
  rw [encapsulateSteps_eq dest nodes cmds (t0 :: tl) hc hn (nodes.length - 1) (by omega) []]
  by_cases h1 : nodes.length = 1
  · simp [h1]
  · have h10 : ¬(nodes.length - 1 = 0) := by omega
    simp [h1, h10]

end Sphinx

namespace Sphinx

/-- createHeader on valid inputs: the shared-secret chain, the relay
commands and the layered header. -/
theorem createHeader_eq (x : Nat) (nodes : List MixConfig) (delays : List Rat)
    (dest : ClientConfig) (t0 : HeaderInitials) (tl : List HeaderInitials)
    (hAux : getSharedSecretsAux nodes [x] = .ok (t0 :: tl))
    (hd : nodes.length ≤ delays.length) :
    createHeader x nodes delays dest
      = some (.ok (t0 :: tl,
          { Alpha := t0.Alpha,
            Beta := if nodes.length = 1 then []
                    else (sphinxLayers dest nodes (roundTripCommands nodes.length delays) (t0 :: tl)).1,
            Mac := (sphinxLayers dest nodes (roundTripCommands nodes.length delays) (t0 :: tl)).2 })) := by
  have hlen : (t0 :: tl).length = nodes.length := getSharedSecretsAux_length nodes [x] _ hAux
  simp only [createHeader, getSharedSecrets, hAux, hlen, eq_self_iff_true, if_true,
    buildCommands_eq nodes.length delays hd,
    encapsulateHeader_eq dest nodes (roundTripCommands nodes.length delays) t0 tl
      (by rw [roundTripCommands_length]) hlen]

/-- PackForwardMessage on valid inputs: the layered header together
with the payload onion. -/
theorem PackForwardMessage_eq (x : Nat) (path : E2EPath) (delays : List Rat) (msg : String)
    (t0 : HeaderInitials) (tl : List HeaderInitials)
    (hAux : getSharedSecretsAux (nodesOf path) [x] = .ok (t0 :: tl))
    (hd : (nodesOf path).length ≤ delays.length) :
    PackForwardMessage x path delays msg
      = some (.ok
          { Hdr := some
              { Alpha := t0.Alpha,
                Beta := if (nodesOf path).length = 1 then []
                        else (sphinxLayers path.Recipient (nodesOf path)
                          (roundTripCommands (nodesOf path).length delays) (t0 :: tl)).1,
                Mac := (sphinxLayers path.Recipient (nodesOf path)
                          (roundTripCommands (nodesOf path).length delays) (t0 :: tl)).2 },
            Pld := contentLayers (t0 :: tl) (strBytes msg) }) := by
  simp only [PackForwardMessage,
    createHeader_eq x (nodesOf path) delays path.Recipient t0 tl hAux hd, encapsulateContent]

/-- The first tuple of the chain carries `alpha_0`, the base point
raised to the initial blind factors. -/
theorem getSharedSecretsAux_head_alpha (nodes : List MixConfig) (bf : List Nat)
    (t0 : HeaderInitials) (tl : List HeaderInitials)
    (h : getSharedSecretsAux nodes bf = .ok (t0 :: tl)) : t0.Alpha = expo 1 bf := by
  cases nodes with
  | nil =>
    rw [getSharedSecretsAux] at h
    injection h with h2
    cases h2
  | cons n0 rest =>
    obtain ⟨-, tl2, -, hinit⟩ := getSharedSecretsAux_cons_inv n0 rest bf _ h
    injection hinit with h1 h2
    rw [h1]
    rfl

end Sphinx

namespace Sphinx

/-- C1: end-to-end round trip.  For every path whose node public keys
match the given private scalars, every delay list of the same length
as the node list, every ephemeral scalar and every message: building
with PackForwardMessage and processing with ProcessSphinxPacket once
per hop in path order succeeds at every hop; hop `i < n-1` returns the
identity of node `i+1` with the Relay flag, the last hop returns the
recipient with the LastHop flag, and the final packet carries exactly
the original message bytes. -/
theorem sphinx_end_to_end_roundtrip (x : Nat) (path : E2EPath) (delays : List Rat)
    (msg : String) (privs : List Nat)
    (hkeys : (nodesOf path).map MixConfig.PubKey = privs.map pubkeyOf)
    (hdel : delays.length = (nodesOf path).length) :
    seqResults (processSeq privs (packBytes x path delays msg))
      = some ((((nodesOf path).drop 1).map hopOfNode ++ [hopOfDest path.Recipient]).zip
          (roundTripCommands (nodesOf path).length delays))
    ∧ seqFinalPayload (processSeq privs (packBytes x path delays msg)) = some (strBytes msg) := by
  have hn2 : (nodesOf path).length = path.Mixes.length + 2 := by
    simp [nodesOf]
  have hvalid : ∀ nd ∈ nodesOf path, nd.PubKey.length = PublicKeySize := by
    intro nd hnd
    have hmem : nd.PubKey ∈ (nodesOf path).map MixConfig.PubKey := List.mem_map_of_mem _ hnd
    rw [hkeys] at hmem
    obtain ⟨p, -, hp⟩ := List.mem_map.mp hmem
    rw [← hp, pubkeyOf_length]
  obtain ⟨inits, hAux⟩ := getSharedSecretsAux_ok (nodesOf path) [x] hvalid
  cases inits with
  | nil =>
    have h0 := getSharedSecretsAux_length _ _ _ hAux
    rw [hn2] at h0
    simp at h0
  | cons t0 tl =>
    have hd : (nodesOf path).length ≤ delays.length := Nat.le_of_eq hdel.symm
    have halpha : t0.Alpha = expo 1 [x] := getSharedSecretsAux_head_alpha _ _ _ _ hAux
    have h1 : ¬((nodesOf path).length = 1) := by omega
    have hpack := PackForwardMessage_eq x path delays msg t0 tl hAux hd
    rw [if_neg h1] at hpack
    rw [halpha] at hpack
    obtain ⟨fb, hseq, hpld⟩ := processSeq_stage path.Recipient (nodesOf path) privs
      (roundTripCommands (nodesOf path).length delays) (t0 :: tl) [x] (strBytes msg)
      (by simp [nodesOf]) hkeys (by rw [roundTripCommands_length]) hAux
    simp only [packBytes, hpack]
    rw [hseq]
    constructor
    · rfl
    · simp only [seqFinalPayload]
      exact hpld

end Sphinx

namespace Sphinx

/-- Witness for C1: the concrete two-relay path with private scalars
11 and 13, ephemeral scalar 7, zero delays and message "hello". -/
theorem sphinx_end_to_end_roundtrip_witness :
    ((nodesOf pathW).map MixConfig.PubKey = [11, 13].map pubkeyOf
      ∧ ([0, 0] : List Rat).length = (nodesOf pathW).length)
    ∧ seqResults (processSeq [11, 13] (packBytes 7 pathW [0, 0] "hello"))
        = some ((((nodesOf pathW).drop 1).map hopOfNode ++ [hopOfDest pathW.Recipient]).zip
            (roundTripCommands (nodesOf pathW).length [0, 0]))
    ∧ seqFinalPayload (processSeq [11, 13] (packBytes 7 pathW [0, 0] "hello"))
        = some (strBytes "hello") :=
  ⟨⟨rfl, rfl⟩, (sphinx_end_to_end_roundtrip 7 pathW [0, 0] "hello" [11, 13] rfl rfl).1,
    (sphinx_end_to_end_roundtrip 7 pathW [0, 0] "hello" [11, 13] rfl rfl).2⟩

/-- The getSharedSecrets loop computes exactly the spec recurrence. -/
theorem getSharedSecretsAux_spec :
    ∀ (nodes : List MixConfig) (bf : List Nat),
      (∀ nd ∈ nodes, nd.PubKey.length = PublicKeySize) →
      getSharedSecretsAux nodes bf = .ok (specSharedSecrets nodes bf) := by
  intro nodes
  induction nodes with
  | nil => intro bf _; rfl
  | cons n0 rest ih =>
    intro bf hk
    simp only [getSharedSecretsAux, if_pos (hk n0 (List.mem_cons_self _ _)),
      ih _ (fun nd hnd => hk nd (List.mem_cons_of_mem _ hnd)), specSharedSecrets]
    rfl

/-- The spec recurrence produces one tuple per node. -/
theorem specSharedSecrets_length :
    ∀ (nodes : List MixConfig) (bf : List Nat),
      (specSharedSecrets nodes bf).length = nodes.length := by
  intro nodes
  induction nodes with
  | nil => intro bf; rfl
  | cons n0 rest ih => intro bf; simp [specSharedSecrets, ih]

/-- C3: shared-secret chain definition.  For every node list with
32-byte public keys and every ephemeral scalar x, getSharedSecrets
returns exactly one tuple per node, equal to the spec recurrence in
which alpha_0 is the base point raised to x, each s_i is
`expo(P_i, [x, b_0, …, b_{i-1}])` computed by iterated scalar
multiplication (the definition of `expo`), k_i = KDF(s_i) and
b_i = bytes_to_scalar(compute_shared_secret_hash(k_i,
"initialvector000")). -/
theorem getSharedSecrets_spec_chain (nodes : List MixConfig) (x : Nat)
    (hvalid : ∀ nd ∈ nodes, nd.PubKey.length = PublicKeySize) :
    getSharedSecrets nodes x = .ok (specSharedSecrets nodes [x])
    ∧ (specSharedSecrets nodes [x]).length = nodes.length :=
  ⟨getSharedSecretsAux_spec nodes [x] hvalid, specSharedSecrets_length nodes [x]⟩

set_option maxRecDepth 40000 in
/-- Witness for C3: the concrete two-relay node list with x = 7. -/
theorem getSharedSecrets_spec_chain_witness :
    (∀ nd ∈ [mixW1, mixW2], nd.PubKey.length = PublicKeySize)
    ∧ getSharedSecrets [mixW1, mixW2] 7 = .ok (specSharedSecrets [mixW1, mixW2] [7])
    ∧ (specSharedSecrets [mixW1, mixW2] [7]).length = [mixW1, mixW2].length :=
  ⟨by decide, (getSharedSecrets_spec_chain [mixW1, mixW2] 7 (by decide)).1,
    (getSharedSecrets_spec_chain [mixW1, mixW2] 7 (by decide)).2⟩

/-- C9: determinism of the chain.  getSharedSecrets is a pure
function of the ephemeral scalar and the node list: any two runs on
the same inputs return bit-identical HeaderInitials lists.  The Go
function draws no randomness; the ephemeral scalar is produced by the
caller (createHeader). -/
theorem getSharedSecrets_deterministic (nodes : List MixConfig) (x : Nat)
    (r1 r2 : Except String (List HeaderInitials))
    (h1 : getSharedSecrets nodes x = r1) (h2 : getSharedSecrets nodes x = r2) :
    r1 = r2 := by
  rw [← h1, ← h2]

/-- Witness for C9 at the concrete two-relay node list with x = 7. -/
theorem getSharedSecrets_deterministic_witness :
    getSharedSecrets [mixW1, mixW2] 7 = getSharedSecrets [mixW1, mixW2] 7 :=
  getSharedSecrets_deterministic [mixW1, mixW2] 7 _ _ rfl rfl

/-- C7: payload length preservation.  encapsulateContent returns a
payload of the same byte length as the message, and
ProcessSphinxPayload returns a payload of the same length as its
input, so the payload length is invariant along the journey. -/
theorem payload_length_preservation :
    (∀ (inits : List HeaderInitials) (msg : String),
      (encapsulateContent inits msg).toOption.map List.length = some (strBytes msg).length)
    ∧ (∀ (alpha : Nat) (payloadIn : List Nat) (privKey : Nat),
      (ProcessSphinxPayload alpha payloadIn privKey).toOption.map List.length
        = some payloadIn.length) := by
  constructor
  · intro inits msg
    simp [encapsulateContent, Except.toOption, contentLayers_length]
  · intro a pin k
    simp [ProcessSphinxPayload, Except.toOption, aesCtr_length]

/-- C10: ProcessSphinxPacket is not total: on the crafted packet
whose MAC verifies but whose decrypted beta lacks the NextHop and
RoutingCommands fields, readBeta dereferences a nil pointer and the
call crashes (modelled by `none`) instead of returning an error; the
empty byte string, which unmarshals with a nil Hdr, crashes the same
way at `*packet.Hdr`. -/
theorem sphinx_process_panics_on_absent_fields :
    ProcessSphinxPacket c10Bytes 11 = none ∧ ProcessSphinxPacket [] 11 = none :=
  ⟨rfl, rfl⟩

set_option maxRecDepth 80000 in
/-- C6: the single-hop scenario fails on the code.  Building over the
one-node list `[P0]` with delay `[0.0]` and message "hello" leaves
beta empty (the encapsulateHeader loop body never runs) while the MAC
covers the innermost ciphertext, so processing with P0s private key
returns the MacMismatch error instead of a LastHop command with the
payload. -/
theorem sphinx_single_hop_fails :
    isMacError (ProcessSphinxPacket c6Bytes 11) = true ∧ betaLenOf c6Build = some 0 := by
  constructor
  · decide
  · decide

set_option maxRecDepth 80000 in
/-- C2: header length is not constant on the code.  The builds over a
two-node and a three-node list produce beta fields of different
lengths (computeFillers is never invoked and beta nests one routing
record per hop), and one application of ProcessSphinxHeader shrinks
beta to the inner layer, so its length changes across a hop. -/
theorem sphinx_header_length_not_constant :
    betaLenOf (createHeader 7 [mixW1, mixW2] [0, 0] destW)
      ≠ betaLenOf (createHeader 7 [mixW1, mixW2, mixW3] [0, 0, 0] destW)
    ∧ procBetaLen (ProcessSphinxHeader hdrC2 11) ≠ some hdrC2.Beta.length := by
  constructor
  · decide
  · decide

end Sphinx

namespace Sphinx

/-- The encapsulateHeader loop keeps the mac component of its state
nonempty. -/
theorem encapsulateSteps_mac (inits : List HeaderInitials) (nodes : List MixConfig)
    (cmds : List Commands) :
    ∀ (k : Nat) (st : EncState), st.2.2 ≠ [] →
      ∀ st2, encapsulateSteps inits nodes cmds k st = some (.ok st2) → st2.2.2 ≠ [] := by
  intro k
  induction k with
  | zero =>
    intro st hst st2 h
    simp only [encapsulateSteps] at h
    injection h with h2
    injection h2 with h3
    rw [← h3]
    exact hst
  | succ k ih =>
    intro st hst st2 h
    obtain ⟨lastRC, b, mac⟩ := st
    simp only [encapsulateSteps] at h
    rcases hn : nodes[k + 1]? with - | nextNode <;>
      rcases hc2 : cmds[k]? with - | cmd <;>
      rcases hi : inits[k]? with - | init <;>
      rw [hn, hc2, hi] at h
    case some.some.some =>
      exact ih _ (by simp [computeMac]) st2 h
    all_goals cases h

/-- C8: error surfacing.  In the embedding the cryptographic and
serialization primitives of header construction never fail (KDF is a
hash, marshalling is total), so every failure path of
encapsulateHeader is an argument panic; for every input,
encapsulateHeader never returns a nil error together with the
zero-value Header: any successful result carries a nonempty MAC. -/
theorem encapsulateHeader_never_zero :
    ∀ (inits : List HeaderInitials) (nodes : List MixConfig) (cmds : List Commands)
      (dest : ClientConfig),
      okHeaderNotZero (encapsulateHeader inits nodes cmds dest) = true := by
  intro inits nodes cmds dest
  rw [encapsulateHeader]
  dsimp only
  split
  · rfl
  split
  · rfl
  split
  · rfl
  · rfl
  · rename_i fst encRouting macF heq
    split
    · rfl
    · rename_i first hfirst
      have hm : macF ≠ [] := by
        have h2 := encapsulateSteps_mac inits nodes cmds (nodes.length - 1) _
          (by simp [computeMac]) _ heq
        simpa using h2
      have hne : ({ Alpha := first.Alpha, Beta := encRouting, Mac := macF } : Header)
          ≠ zeroHeader := by
        intro hz
        apply hm
        have h3 := congrArg Header.Mac hz
        simpa [zeroHeader] using h3
      simp [okHeaderNotZero, hne]

end Sphinx

namespace Sphinx

/-- C5 (amended): PackForwardMessage performs no arity check.  With
valid keys it crashes with an index-out-of-range panic (none) exactly
when there are fewer delays than nodes, and it succeeds without any
error whenever there are at least as many delays as nodes, ignoring
extra delays; no BadArity error exists. -/
theorem packForward_no_arity_check (x : Nat) (path : E2EPath) (delays : List Rat)
    (msg : String)
    (hvalid : ∀ nd ∈ nodesOf path, nd.PubKey.length = PublicKeySize) :
    (PackForwardMessage x path delays msg = none ↔ delays.length < (nodesOf path).length)
    ∧ ((nodesOf path).length ≤ delays.length →
        isOkRes (PackForwardMessage x path delays msg) = true) := by
  have hn2 : (nodesOf path).length = path.Mixes.length + 2 := by simp [nodesOf]
  obtain ⟨inits, hAux⟩ := getSharedSecretsAux_ok (nodesOf path) [x] hvalid
  cases inits with
  | nil =>
    have h0 := getSharedSecretsAux_length _ _ _ hAux
    rw [hn2] at h0
    simp at h0
  | cons t0 tl =>
    by_cases hcmp : delays.length < (nodesOf path).length
    · have hlen : (t0 :: tl).length = (nodesOf path).length :=
        getSharedSecretsAux_length _ _ _ hAux
      have hnone : PackForwardMessage x path delays msg = none := by
        simp only [PackForwardMessage, createHeader, getSharedSecrets, hAux, hlen,
          eq_self_iff_true, if_true, buildCommands_none _ _ hcmp]
      refine ⟨⟨fun _ => hcmp, fun _ => hnone⟩, fun hge => ?_⟩
      omega
    · have hge : (nodesOf path).length ≤ delays.length := by omega
      have hpack := PackForwardMessage_eq x path delays msg t0 tl hAux hge
      refine ⟨⟨fun hn => ?_, fun h => by omega⟩, fun _ => by rw [hpack]; rfl⟩
      rw [hpack] at hn
      exact Option.noConfusion hn

/-- Witness for C5 (amended): over the concrete two-relay path, one
delay crashes the build and two delays succeed. -/
theorem packForward_no_arity_check_witness :
    PackForwardMessage 7 pathW [0] "m" = none
    ∧ isOkRes (PackForwardMessage 7 pathW [0, 0] "m") = true :=
  ⟨(packForward_no_arity_check 7 pathW [0] "m" (by decide)).1.mpr (by decide),
   (packForward_no_arity_check 7 pathW [0, 0] "m" (by decide)).2 (by decide)⟩

set_option maxRecDepth 80000 in
/-- Counterexample for C5 as stated: a delay list of length 3 over a
two-node path differs in length, yet PackForwardMessage succeeds
instead of failing with BadArity. -/
theorem packForward_arity_counterexample :
    ([0, 0, 0] : List Rat).length ≠ (nodesOf pathW).length
    ∧ isOkRes (PackForwardMessage 7 pathW [0, 0, 0] "m") = true := by
  constructor
  · decide
  · decide

end Sphinx

namespace Sphinx

/-- ProcessSphinxHeader rejects a header whose MAC does not match the
recomputed one. -/
theorem ProcessSphinxHeader_mac_fail (h : Header) (p : Nat)
    (hne : computeMac (KDF (KDF (scalarMult p h.Alpha))) h.Beta ≠ h.Mac) :
    ProcessSphinxHeader h p
      = some (.error "packet processing error: MACs are not matching") := by
  simp only [ProcessSphinxHeader]
  rw [if_neg hne]

/-- ProcessSphinxPacket propagates the MacMismatch error of the
header. -/
theorem ProcessSphinxPacket_mac_fail (hd : Header) (pld : List Nat) (p : Nat)
    (hne : computeMac (KDF (KDF (scalarMult p hd.Alpha))) hd.Beta ≠ hd.Mac) :
    ProcessSphinxPacket (marshalPacket { Hdr := some hd, Pld := pld }) p
      = some (.error "packet processing error: MACs are not matching") := by
  simp only [ProcessSphinxPacket, unmarshalPacket_marshal,
    ProcessSphinxHeader_mac_fail hd p hne]

/-- Overwriting one position of a list with a different value changes
the list. -/
theorem set_changes (l : List Nat) (i v : Nat) (hi : i < l.length) (hv : v ≠ l.getD i 0) :
    l.set i v ≠ l := by
  intro h
  apply hv
  have h2 := congrArg (fun t : List Nat => t[i]?) h
  simp only [List.getElem?_set_self hi, List.getElem?_eq_getElem hi] at h2
  injection h2 with h3
  rw [h3]
  simp [List.getElem?_eq_getElem hi]

/-- The MAC of a layer stack is the keyed tag of its ciphertext under
the key of the first tuple. -/
theorem sphinxLayers_snd (dest : ClientConfig) (nodes : List MixConfig) (cmds : List Commands)
    (t : HeaderInitials) (ts : List HeaderInitials) (hn : nodes ≠ []) (hc : cmds ≠ []) :
    (sphinxLayers dest nodes cmds (t :: ts)).2
      = computeMac (KDF t.SecretHash) (sphinxLayers dest nodes cmds (t :: ts)).1 := by
  cases nodes with
  | nil => exact absurd rfl hn
  | cons n0 rest =>
    cases cmds with
    | nil => exact absurd rfl hc
    | cons c0 cs =>
      cases rest with
      | nil => rfl
      | cons n1 rest2 => rfl

end Sphinx

namespace Sphinx

/-- C4: MAC rejection.  For every packet built over a path whose keys
match the private scalars, mutating any single byte of beta, or
changing the alpha field, makes processing with the first relay
private key fail with the MacMismatch error; the error carries no
routing information and no payload. -/
theorem sphinx_mac_rejection (x : Nat) (path : E2EPath) (delays : List Rat) (msg : String)
    (p0 : Nat) (privs2 : List Nat)
    (hkeys : (nodesOf path).map MixConfig.PubKey = (p0 :: privs2).map pubkeyOf)
    (hdel : delays.length = (nodesOf path).length)
    (hdr : Header) (pld : List Nat)
    (hpack : PackForwardMessage x path delays msg = some (.ok { Hdr := some hdr, Pld := pld })) :
    (∀ i v, i < hdr.Beta.length → v ≠ hdr.Beta.getD i 0 →
      ProcessSphinxPacket (marshalPacket
        { Hdr := some { Alpha := hdr.Alpha, Beta := hdr.Beta.set i v, Mac := hdr.Mac },
          Pld := pld }) p0
        = some (.error "packet processing error: MACs are not matching"))
    ∧ (∀ a, a ≠ hdr.Alpha →
      ProcessSphinxPacket (marshalPacket
        { Hdr := some { Alpha := a, Beta := hdr.Beta, Mac := hdr.Mac }, Pld := pld }) p0
        = some (.error "packet processing error: MACs are not matching")) := by
  have hn2 : (nodesOf path).length = path.Mixes.length + 2 := by simp [nodesOf]
  have hvalid : ∀ nd ∈ nodesOf path, nd.PubKey.length = PublicKeySize := by
    intro nd hnd
    have hmem : nd.PubKey ∈ (nodesOf path).map MixConfig.PubKey := List.mem_map_of_mem _ hnd
    rw [hkeys] at hmem
    obtain ⟨p, -, hp⟩ := List.mem_map.mp hmem
    rw [← hp, pubkeyOf_length]
  obtain ⟨inits, hAux⟩ := getSharedSecretsAux_ok (nodesOf path) [x] hvalid
  cases inits with
  | nil =>
    have h0 := getSharedSecretsAux_length _ _ _ hAux
    rw [hn2] at h0
    simp at h0
  | cons t0 tl =>
    have hd : (nodesOf path).length ≤ delays.length := Nat.le_of_eq hdel.symm
    have h1 : ¬((nodesOf path).length = 1) := by omega
    have hpack2 := PackForwardMessage_eq x path delays msg t0 tl hAux hd
    rw [if_neg h1] at hpack2
    have hP := hpack2.symm.trans hpack
    simp only [Option.some.injEq, Except.ok.injEq, SphinxPacket.mk.injEq] at hP
    obtain ⟨hH, hPld⟩ := hP
    -- the first node public key corresponds to p0
    have hkey0 : path.IngressProvider.PubKey = pubkeyOf p0 := by
      simp only [nodesOf, List.map_cons, List.cons.injEq] at hkeys
      exact hkeys.1
    -- t0 fields from the chain inversion
    obtain ⟨-, tl2, -, hinit⟩ := getSharedSecretsAux_cons_inv path.IngressProvider
      (path.Mixes ++ [path.EgressProvider]) [x] (t0 :: tl) hAux
    injection hinit with hT0 hTl
    have hSH : t0.SecretHash = KDF (expo (clamp p0) [x]) := by
      rw [hT0]
      simp [hkey0, bytesToNat_pubkeyOf]
    have hAlpha : t0.Alpha = expo 1 [x] := by
      rw [hT0]
      rfl
    have hMac2 : (sphinxLayers path.Recipient (nodesOf path)
          (roundTripCommands (nodesOf path).length delays) (t0 :: tl)).2
        = computeMac (KDF (KDF (expo (clamp p0) [x])))
            (sphinxLayers path.Recipient (nodesOf path)
              (roundTripCommands (nodesOf path).length delays) (t0 :: tl)).1 := by
      rw [sphinxLayers_snd path.Recipient (nodesOf path) _ t0 tl (by simp [nodesOf]) ?hc, hSH]
      case hc =>
        intro hnil
        have := roundTripCommands_length (nodesOf path).length delays
        rw [hnil] at this
        simp at this
        omega
    subst hH
    subst hPld
    constructor
    · intro i v hi hv
      apply ProcessSphinxPacket_mac_fail
      dsimp only
      dsimp only at hi hv
      rw [hMac2, hAlpha]
      simp only [scalarMult_expo_one]
      intro h
      have h2 := (List.cons.inj h).2
      exact set_changes _ i v hi hv h2
    · intro a ha
      apply ProcessSphinxPacket_mac_fail
      dsimp only
      dsimp only at ha
      rw [hMac2]
      intro h
      apply ha
      have h2 := (List.cons.inj h).1
      have h3 := KDF_injective (KDF_injective h2)
      rw [← scalarMult_expo_one] at h3
      have h4 := Nat.eq_of_mul_eq_mul_left (clamp_pos p0) h3
      rw [h4, hAlpha]

end Sphinx

namespace Sphinx

set_option maxRecDepth 200000 in
/-- Witness for C4: the concrete packet with byte 0 of beta changed
and with alpha changed. -/
theorem sphinx_mac_rejection_witness :
    (0 < hdrW.Beta.length ∧ hdrW.Beta.getD 0 0 + 1 ≠ hdrW.Beta.getD 0 0
      ∧ hdrW.Alpha + 1 ≠ hdrW.Alpha)
    ∧ ProcessSphinxPacket (marshalPacket
        { Hdr := some { Alpha := hdrW.Alpha,
                        Beta := hdrW.Beta.set 0 (hdrW.Beta.getD 0 0 + 1), Mac := hdrW.Mac },
          Pld := pktW.Pld }) 11
      = some (.error "packet processing error: MACs are not matching")
    ∧ ProcessSphinxPacket (marshalPacket
        { Hdr := some { Alpha := hdrW.Alpha + 1, Beta := hdrW.Beta, Mac := hdrW.Mac },
          Pld := pktW.Pld }) 11
      = some (.error "packet processing error: MACs are not matching") :=
  ⟨⟨by decide, by decide, by decide⟩,
   (sphinx_mac_rejection 7 pathW [0, 0] "hello" 11 [13] rfl rfl hdrW pktW.Pld rfl).1 0
      (hdrW.Beta.getD 0 0 + 1) (by decide) (by decide),
   (sphinx_mac_rejection 7 pathW [0, 0] "hello" 11 [13] rfl rfl hdrW pktW.Pld rfl).2
      (hdrW.Alpha + 1) (by decide)⟩

end Sphinx
